import Mathlib

/-!
Verification development for the `classical_extras` Picard plugin
(`src/plugins/classical_extras/__init__.py`).

The Python source is shallowly embedded: strings are lists of characters
(`Txt`), the Python 2 ASCII character classes (`\w`, `\s`, `\d`) are
explicit predicates, and each relevant Python function is translated into
an executable Lean definition keeping the source's control flow.  Side
effects that do not influence the values the claims are about (logging,
and the mutation of Picard metadata objects) are either dropped or made
explicit as returned event lists.
-/

/-- Character strings of the embedded Python code: a Python (unicode)
string is modelled as its list of characters. -/
abbrev Txt := List Char

/-- The apostrophe character (spelled via its code point). -/
def aposC : Char := Char.ofNat 39

/-- Python 2 ASCII whitespace, the class `\s` of patterns compiled from
byte strings, and the default strip set of `str.strip()`. -/
def isSpaceA (c : Char) : Bool :=
  c = ' ' || c = '\t' || c = '\n' || c = '\x0d' || c = '\x0b' || c = '\x0c'

/-- Python 2 ASCII word characters: the class `\w` of patterns compiled
without `re.UNICODE` (letters a-z/A-Z, digits, underscore). -/
def isWordA (c : Char) : Bool :=
  c.isAlphanum || c = '_'

/-- Word characters of patterns compiled with `re.UNICODE`.  Beyond the
ASCII word class this includes the letters of the Latin-1 Supplement and
Latin Extended-A/B blocks (the accented letters the plugin actually
meets); the two non-letter symbols of those blocks (multiplication and
division signs) are excluded.  Other Unicode letter blocks are outside
the model's character repertoire. -/
def isWordU (c : Char) : Bool :=
  c.isAlphanum || c = '_' ||
    (0xC0 ≤ c.toNat && c.toNat ≤ 0x24F && c.toNat ≠ 0xD7 && c.toNat ≠ 0xF7)

/-- ASCII decimal digits, the class `\d`. -/
def isDigitA (c : Char) : Bool := c.isDigit

/-- Python `unicode.lower()`, restricted to the ASCII and Latin-1 ranges
(plus the OE ligature); identity elsewhere. -/
def pyLower (c : Char) : Char :=
  if 'A' ≤ c ∧ c ≤ 'Z' then Char.ofNat (c.toNat + 32)
  else if 0xC0 ≤ c.toNat ∧ c.toNat ≤ 0xDE ∧ c.toNat ≠ 0xD7 then Char.ofNat (c.toNat + 32)
  else if c.toNat = 0x152 then Char.ofNat 0x153
  else c

/-- Lowering of a whole string. -/
def lowerTxt (s : Txt) : Txt := s.map pyLower

/-- Python `s.lstrip(chars)` (left strip of any of the given characters). -/
def lstripIf (p : Char → Bool) (s : Txt) : Txt := s.dropWhile p

/-- Python `s.rstrip(chars)`. -/
def rstripIf (p : Char → Bool) (s : Txt) : Txt := (s.reverse.dropWhile p).reverse

/-- Python `s.strip(chars)`. -/
def stripIf (p : Char → Bool) (s : Txt) : Txt := rstripIf p (lstripIf p s)

/-- Python `s.strip()` (whitespace strip). -/
def pyStrip (s : Txt) : Txt := stripIf isSpaceA s

/-- Python `s.strip(cs)` for an explicit character set. -/
def pyStripChars (cs : List Char) (s : Txt) : Txt := stripIf (fun c => cs.contains c) s

/-- Python `s.count(c)` for a single character. -/
def countC (c : Char) (s : Txt) : Nat := s.count c

/-- `leadMatch t s`: `t` is an initial segment of `s` (Python
`s.startswith(t)`). -/
def leadMatch : Txt → Txt → Bool
  | [], _ => true
  | _ :: _, [] => false
  | a :: as, b :: bs => a = b && leadMatch as bs

theorem leadMatch_iff (t s : Txt) : leadMatch t s = true ↔ ∃ v, s = t ++ v := by
  induction t generalizing s with
  | nil => simp [leadMatch]
  | cons a as ih =>
    cases s with
    | nil =>
      simp only [leadMatch]
      constructor
      · intro h; exact absurd h (by simp)
      · rintro ⟨v, hv⟩; simp at hv
    | cons b bs =>
      simp only [leadMatch, Bool.and_eq_true, decide_eq_true_eq, ih]
      constructor
      · rintro ⟨hab, v, hv⟩; exact ⟨v, by simp [hab, hv]⟩
      · rintro ⟨v, hv⟩
        simp only [List.cons_append, List.cons.injEq] at hv
        exact ⟨hv.1.symm ▸ rfl, v, hv.2⟩

/-- Python `s.replace(pat, rep)`, fuelled so that the kernel can evaluate
it: replace every non-overlapping occurrence scanning left to right.
Each step consumes at least one character, so fuel `s.length` (as
supplied by `strReplace`) never runs out.  (All patterns the plugin
passes are non-empty.) -/
def strReplaceF (pat rep : Txt) : Nat → Txt → Txt
  | _, [] => []
  | 0, s => s
  | fuel + 1, c :: rest =>
    if pat ≠ [] ∧ leadMatch pat (c :: rest) then
      rep ++ strReplaceF pat rep fuel ((c :: rest).drop pat.length)
    else
      c :: strReplaceF pat rep fuel rest

/-- Python `s.replace(pat, rep)`. -/
def strReplace (pat rep : Txt) (s : Txt) : Txt := strReplaceF pat rep s.length s

/-- Python slice `s[a:b]` for `0 ≤ a ≤ b` (the only uses in the model);
works for strings and lists alike, as in the source. -/
def pySlice {α : Type} (a b : Nat) (s : List α) : List α := (s.drop a).take (b - a)

/-- Python `s.split(sep)` for a single-character separator (keeps empty
pieces, like Python). -/
def splitOnC (sep : Char) (s : Txt) : List Txt := s.splitOn sep

/-- `t` occurs as a contiguous segment (Python substring) of `s`. -/
def IsSeg {α : Type} (t s : List α) : Prop := ∃ u v, s = u ++ t ++ v

/-- Executable test for `IsSeg`. -/
def isSegB (t : Txt) : Txt → Bool
  | [] => leadMatch t []
  | c :: rest => leadMatch t (c :: rest) || isSegB t rest

theorem isSegB_iff (t s : Txt) : isSegB t s = true ↔ IsSeg t s := by
  induction s with
  | nil =>
    simp only [isSegB, IsSeg, leadMatch_iff]
    constructor
    · rintro ⟨v, hv⟩
      exact ⟨[], v, by simpa using hv⟩
    · rintro ⟨u, v, huv⟩
      have hu : u = [] := by cases u <;> simp_all
      subst hu
      exact ⟨v, by simpa using huv⟩
  | cons c rest ih =>
    simp only [isSegB, Bool.or_eq_true, ih, leadMatch_iff]
    constructor
    · rintro (⟨v, hv⟩ | ⟨u, v, huv⟩)
      · exact ⟨[], v, by simpa using hv⟩
      · exact ⟨c :: u, v, by simp [huv]⟩
    · rintro ⟨u, v, huv⟩
      cases u with
      | nil =>
        exact Or.inl ⟨v, by simpa using huv⟩
      | cons a u =>
        simp only [List.cons_append, List.cons.injEq] at huv
        exact Or.inr ⟨u, v, huv.2⟩

/-! ## C1: the lookup queue (`PartLevels.WorksQueue`, `work_add_track`)

`WorksQueue.queue` is a Python dict from work id to the list of waiting
`(track, album)` pairs.  It is modelled as an association list with unique
keys (dict keys are unique); insertion order is kept, as in a Python dict. -/

/-- The works queue: work id `K` mapped to its waiters `W`. -/
abbrev WQueue (K W : Type) := List (K × List W)

/-- Dict membership / item access: the value stored under `k`, if any. -/
def queueGet {K W : Type} [DecidableEq K] (q : WQueue K W) (k : K) : Option (List W) :=
  match q with
  | [] => none
  | (k2, l) :: rest => if k2 = k then some l else queueGet rest k

/-- `WorksQueue.remove`: delete the entry of `k` (returning queue only;
the removed value is read separately with `queueGet`). -/
def queueRemove {K W : Type} [DecidableEq K] (q : WQueue K W) (k : K) : WQueue K W :=
  q.filter (fun e => e.1 ≠ k)

/-- Update of the (unique) entry of `k`: `self.queue[name].append(value)`. -/
def queueUpd {K W : Type} [DecidableEq K] (q : WQueue K W) (k : K) (v : W) : WQueue K W :=
  match q with
  | [] => []
  | (a, l) :: rest => if a = k then (a, l ++ [v]) :: rest else (a, l) :: queueUpd rest k v

/-- `WorksQueue.append` (source lines 4040-4049): if `k` is already queued
append the waiter to its entry and return `false`, else create the entry
`[v]` and return `true`.  The boolean is the Python return value. -/
def worksQueueAppend {K W : Type} [DecidableEq K] (q : WQueue K W) (k : K) (v : W) :
    WQueue K W × Bool :=
  match queueGet q k with
  | some _ => (queueUpd q k v, false)
  | none => (q ++ [(k, [v])], true)

/-- `PartLevels.work_add_track` (lines 4562-4618), reduced to its queue
effect: the waiter is appended through `WorksQueue.append`, and the XML
lookup (`album.tagger.xmlws.get`) is issued exactly when that call
returns `True`.  The issued request is reported as `some k`. -/
def workAddTrack {K W : Type} [DecidableEq K] (q : WQueue K W) (k : K) (v : W) :
    WQueue K W × Option K :=
  let r := worksQueueAppend q k v
  (r.1, if r.2 then some k else none)

theorem queueGet_upd {K W : Type} [DecidableEq K] (q : WQueue K W) (k : K) (v : W) :
    ∀ k2, queueGet (queueUpd q k v) k2 =
      if k2 = k then (queueGet q k2).map (fun l => l ++ [v]) else queueGet q k2 := by
  intro k2
  induction q with
  | nil => by_cases h : k2 = k <;> simp [queueGet, queueUpd, h]
  | cons e rest ih =>
    obtain ⟨a, l⟩ := e
    by_cases h1 : a = k
    · by_cases h2 : k2 = k
      · subst h2; subst h1; simp [queueGet, queueUpd]
      · have h3 : ¬ a = k2 := fun hc => h2 (hc ▸ h1)
        have h4 : ¬ k = k2 := fun hc => h2 hc.symm
        simp [queueGet, queueUpd, h1, h3, h2, h4]
    · by_cases h2 : a = k2
      · have hk2 : ¬ k2 = k := by rw [← h2]; exact h1
        simp [queueGet, queueUpd, h1, h2, hk2]
      · simp [queueGet, queueUpd, h1, h2, ih]

theorem queueGet_append_single {K W : Type} [DecidableEq K] (q : WQueue K W) (k : K) (v : W)
    (hk : queueGet q k = none) :
    ∀ k2, queueGet (q ++ [(k, [v])]) k2 =
      if k2 = k then some [v] else queueGet q k2 := by
  intro k2
  induction q with
  | nil =>
    by_cases h2 : k2 = k
    · simp [queueGet, h2]
    · have h3 : ¬ k = k2 := fun hc => h2 hc.symm
      simp [queueGet, h2, h3]
  | cons e rest ih =>
    obtain ⟨a, l⟩ := e
    by_cases h2 : a = k
    · simp [queueGet, h2] at hk
    · have hk2 : queueGet rest k = none := by simpa [queueGet, h2] using hk
      by_cases h : a = k2
      · have h3 : ¬ k2 = k := by rw [← h]; exact h2
        simp [queueGet, h, h3]
      · simp only [List.cons_append, queueGet, h, if_false]
        exact ih hk2

/-- C1: adding a waiter for a work id already in the queue joins the
existing entry and issues no request; a request is issued exactly when the
id was not yet queued; entries of other ids are untouched.  Hence each
append issues at most one request per id, only on first need. -/
theorem workAddTrack_dedup {K W : Type} [DecidableEq K] (q : WQueue K W) (k : K) (v : W) :
    ((workAddTrack q k v).2 = some k ↔ queueGet q k = none) ∧
    queueGet (workAddTrack q k v).1 k = some ((queueGet q k).getD [] ++ [v]) ∧
    (∀ k2, k2 ≠ k → queueGet (workAddTrack q k v).1 k2 = queueGet q k2) := by
  unfold workAddTrack worksQueueAppend
  cases hq : queueGet q k with
  | some l =>
    refine ⟨by simp, ?_, ?_⟩
    · simp [queueGet_upd, hq]
    · intro k2 hk2
      simp [queueGet_upd, hk2]
  | none =>
    refine ⟨by simp, ?_, ?_⟩
    · simp [queueGet_append_single q k v hq, hq]
    · intro k2 hk2
      simp [queueGet_append_single q k v hq, hk2]

/-- Witness for `workAddTrack_dedup` at a concrete queue. -/
theorem workAddTrack_dedup_witness :
    queueGet (workAddTrack [(("w1" : String), [("t1" : String)])] "w2" "t2").1 "w1" =
      queueGet [(("w1" : String), ["t1"])] "w1" :=
  (workAddTrack_dedup [("w1", ["t1"])] "w2" "t2").2.2 "w1" (by decide)

/-! ## C2: retry and exhaustion in `work_process` (lines 4625-4665)

On a network error, `work_process` removes the queue entry and loops over
the waiters: below the budget `cwp_retries` each waiter is re-queued via
`work_add_track` with `tries + 1` (so exactly one new XML request is
issued, by the queue's dedup); at or above the budget the waiter's track
gets the terminal `~cwp_error` annotation — but only when error or info
logging is enabled, because the `append_tag` call sits inside
`if self.ERROR or self.INFO`.  Requests and tag appends are returned as an
event list. -/

/-- The options `work_process` consults on the error path. -/
structure LogOpts where
  log_error : Bool
  log_info : Bool
  cwp_retries : Nat
  deriving Repr, DecidableEq

/-- Observable effects of the error path of `work_process`. -/
inductive WPEvent (K W : Type) where
  /-- An XML lookup issued for a work id with a try count and the
  `user_data` flag. -/
  | req : K → Nat → Bool → WPEvent K W
  /-- `append_tag(track.metadata, stringsAreLists, message)` on `~cwp_error`. -/
  | errtag : W → String → WPEvent K W
  deriving Repr, DecidableEq

/-- The terminal error annotation of the exhausted branch (line 4663). -/
def msgExhausted : String :=
  "4. ERROR: MISSING METADATA due to network errors. Re-try or fix manually."

/-- The authentication-failure annotation (line 4657). -/
def msgAuth : String :=
  "3. Authentication failure - data retrieval omits user-specific requests"

/-- One waiter step of the `for track, album in tuples` loop of the error
branch of `work_process` (lines 4640-4664). -/
def workProcessStep {K W : Type} [DecidableEq K] (o : LogOpts) (k : K) (tries : Nat)
    (err : String) (acc : WQueue K W × List (WPEvent K W)) (w : W) :
    WQueue K W × List (WPEvent K W) :=
  if tries < o.cwp_retries then
    let ud := err ≠ "204"
    let evs3 : List (WPEvent K W) := if err = "204" then [WPEvent.errtag w msgAuth] else []
    let r := workAddTrack acc.1 k w
    (r.1, acc.2 ++ evs3 ++ (match r.2 with | some _ => [WPEvent.req k (tries + 1) ud] | none => []))
  else
    (acc.1,
      acc.2 ++ (if o.log_error || o.log_info then [WPEvent.errtag w msgExhausted] else []))

/-- The error branch of `work_process` (lines 4638-4665): remove the
queue entry of `workId`, then run the waiter loop. -/
def workProcessError {K W : Type} [DecidableEq K] (o : LogOpts) (q : WQueue K W) (k : K)
    (tries : Nat) (err : String) : WQueue K W × List (WPEvent K W) :=
  let tuples := (queueGet q k).getD []
  tuples.foldl (workProcessStep o k tries err) (queueRemove q k, [])

theorem queueGet_remove_self {K W : Type} [DecidableEq K] (q : WQueue K W) (k : K) :
    queueGet (queueRemove q k) k = none := by
  induction q with
  | nil => simp [queueRemove, queueGet]
  | cons e rest ih =>
    by_cases h : e.1 = k
    · simpa [queueRemove, h] using ih
    · simpa [queueRemove, queueGet, h] using ih

theorem workProcess_fold_requeued {K W : Type} [DecidableEq K] (o : LogOpts) (k : K)
    (tries : Nat) (err : String) (herr : err ≠ "204") (htr : tries < o.cwp_retries) :
    ∀ (ws : List W) (q : WQueue K W) (evs : List (WPEvent K W)),
      queueGet q k ≠ none →
      (ws.foldl (workProcessStep o k tries err) (q, evs)).2 = evs := by
  intro ws
  induction ws with
  | nil => intro q evs _; simp
  | cons w rest ih =>
    intro q evs hq
    simp only [List.foldl_cons]
    have hstep : workProcessStep o k tries err (q, evs) w =
        ((workAddTrack q k w).1, evs) := by
      unfold workProcessStep
      cases hg : queueGet q k with
      | none => exact absurd hg hq
      | some l =>
        have h2 : (workAddTrack q k w).2 = none := by
          unfold workAddTrack worksQueueAppend
          simp [hg]
        simp [htr, herr, h2]
    rw [hstep]
    refine ih _ _ ?_
    have := (workAddTrack_dedup q k w).2.1
    simp [this]

/-- C2 (amended): on a transient (non-authentication) error, while the try
count is below `cwp_retries` the work id is re-queued once with the count
incremented — a single new request, whatever the number of waiters — and
once the budget is exhausted no further request is issued and, provided
error or info logging is enabled (the default), each waiting track
receives exactly one terminal `~cwp_error` annotation. -/
theorem workProcessError_spec {K W : Type} [DecidableEq K] (o : LogOpts) (q : WQueue K W)
    (k : K) (tries : Nat) (err : String) (ws : List W)
    (herr : err ≠ "204") (hws : queueGet q k = some ws) (hlog : o.log_error = true) :
    (tries < o.cwp_retries →
      (workProcessError o q k tries err).2 =
        (if ws.isEmpty then [] else [WPEvent.req k (tries + 1) true])) ∧
    (o.cwp_retries ≤ tries →
      (workProcessError o q k tries err).2 = ws.map (fun w => WPEvent.errtag w msgExhausted)) := by
  constructor
  · intro htr
    unfold workProcessError
    rw [hws]
    cases ws with
    | nil => simp [queueRemove]
    | cons w rest =>
      simp only [Option.getD_some, List.foldl_cons, List.isEmpty_cons, if_neg Bool.false_ne_true]
      have hstep : workProcessStep o k tries err (queueRemove q k, []) w =
          ((workAddTrack (queueRemove q k) k w).1,
            [WPEvent.req k (tries + 1) (err ≠ "204")]) := by
        unfold workProcessStep
        have hg : queueGet (queueRemove q k) k = none := queueGet_remove_self q k
        have h2 : (workAddTrack (queueRemove q k) k w).2 = some k := by
          unfold workAddTrack worksQueueAppend
          simp [hg]
        simp [htr, herr, h2]
      rw [hstep]
      have hud : (err ≠ "204") = True := by simp [herr]
      rw [workProcess_fold_requeued o k tries err herr htr rest _ _ ?_]
      · simp [herr]
      · have := (workAddTrack_dedup (queueRemove q k) k w).2.1
        simp [this]
  · intro htr
    unfold workProcessError
    rw [hws]
    simp only [Option.getD_some]
    have hnotlt : ¬ tries < o.cwp_retries := by omega
    have : ∀ (l : List W) (q0 : WQueue K W) (evs : List (WPEvent K W)),
        (l.foldl (workProcessStep o k tries err) (q0, evs)).2 =
          evs ++ l.map (fun w => WPEvent.errtag w msgExhausted) := by
      intro l
      induction l with
      | nil => intro q0 evs; simp
      | cons w rest ih =>
        intro q0 evs
        simp only [List.foldl_cons, List.map_cons]
        have hstep : workProcessStep o k tries err (q0, evs) w =
            (q0, evs ++ [WPEvent.errtag w msgExhausted]) := by
          unfold workProcessStep
          simp [hnotlt, hlog]
        rw [hstep, ih]
        simp
    simpa using this ws (queueRemove q k) []

/-- Witness for `workProcessError_spec`: budget 6 already exhausted at try
count 6, one waiter, default logging. -/
theorem workProcessError_spec_witness :
    (workProcessError ⟨true, false, 6⟩ [(("w1" : String), [("t1" : String)])] "w1" 6 "500").2 =
      [WPEvent.errtag "t1" msgExhausted] :=
  (workProcessError_spec ⟨true, false, 6⟩ [("w1", ["t1"])] "w1" 6 "500" ["t1"]
    (by decide) (by decide) rfl).2 (by decide)

/-- C2 counterexample: with error and info logging both disabled the
exhausted branch appends no annotation at all — the event list is empty
although one track is waiting, contradicting the unconditional claim. -/
theorem workProcessError_no_logging_cex :
    (workProcessError ⟨false, false, 6⟩ [(("w1" : String), [("t1" : String)])] "w1" 6 "500").2 =
      [] := by
  decide

/-! ## C3: trackback trees and `level_calc` (lines 5247-5276)

A trackback node either lacks a `children` key (`leaf`) or carries a list
of child trackbacks (`node`).  `level_calc` writes `height` top-down and
`depth` bottom-up and returns the subtree depth. -/

/-- A per-release trackback tree, as built by `append_trackback`. -/
inductive TB where
  | leaf : TB
  | node : List TB → TB

/-- A trackback node after `level_calc`: `height`, `depth`, children. -/
inductive ATB where
  | mk : Nat → Nat → List ATB → ATB

def ATB.height : ATB → Nat
  | .mk h _ _ => h

def ATB.depth : ATB → Nat
  | .mk _ d _ => d

def ATB.children : ATB → List ATB
  | .mk _ _ cs => cs

mutual

/-- `PartLevels.level_calc`: a leaf gets the current height and depth 0;
a node gets the current height, recurses on each child with `height + 1`,
and accumulates `max_depth = max(child_depth + 1, max_depth)` starting
from 0 (the `for child in trackback['children']` loop is
`levelCalcKids`).  Returns the annotated node and the Python return value
(`max_depth`). -/
def levelCalc : TB → Nat → ATB × Nat
  | .leaf, h => (.mk h 0 [], 0)
  | .node cs, h =>
    let r := levelCalcKids cs (h + 1) 0
    (.mk h r.2 r.1, r.2)

/-- The child loop of `level_calc`, carrying the `max_depth` accumulator. -/
def levelCalcKids : List TB → Nat → Nat → List ATB × Nat
  | [], _, maxd => ([], maxd)
  | c :: rest, h, maxd =>
    let rc := levelCalc c h
    let r := levelCalcKids rest h (max (rc.2 + 1) maxd)
    (rc.1 :: r.1, r.2)

end

/-- Maximum of a list of naturals (0 when empty). -/
def maxNat (l : List Nat) : Nat := l.foldr max 0

mutual

/-- The depth/height invariant of the claim, read off an annotated node:
the node's recorded height is the given one, a node without children has
depth 0, a node with children has depth `1 + max(child depths)`, and all
children satisfy the invariant at `height + 1`. -/
def InvATB : ATB → Nat → Prop
  | .mk h1 d cs, h =>
    h1 = h ∧ (cs = [] → d = 0) ∧ (cs ≠ [] → d = 1 + maxNat (cs.map ATB.depth)) ∧
    InvKids cs (h + 1)

/-- The invariant for a list of children. -/
def InvKids : List ATB → Nat → Prop
  | [], _ => True
  | c :: rest, h => InvATB c h ∧ InvKids rest h

end

theorem levelCalc_fst_depth (t : TB) (h : Nat) :
    (levelCalc t h).1.depth = (levelCalc t h).2 := by
  cases t <;> simp [levelCalc, ATB.depth]

theorem levelCalcKids_fst (cs : List TB) (h : Nat) (maxd : Nat) :
    (levelCalcKids cs h maxd).1 = cs.map (fun c => (levelCalc c h).1) := by
  induction cs generalizing maxd with
  | nil => simp [levelCalcKids]
  | cons c rest ih => simp [levelCalcKids, ih]

theorem levelCalcKids_snd (cs : List TB) (h : Nat) (maxd : Nat) :
    (levelCalcKids cs h maxd).2 =
      (cs.map (fun c => (levelCalc c h).2)).foldl (fun m d => max (d + 1) m) maxd := by
  induction cs generalizing maxd with
  | nil => simp [levelCalcKids]
  | cons c rest ih => simp [levelCalcKids, ih]

theorem foldl_max_acc (ds : List Nat) (a : Nat) :
    ds.foldl (fun m d => max (d + 1) m) a = max a (ds.foldr (fun d r => max (d + 1) r) 0) := by
  induction ds generalizing a with
  | nil => simp
  | cons d ds ih =>
    simp only [List.foldl_cons, List.foldr_cons, ih]
    omega

theorem foldr_succ_max (ds : List Nat) (h : ds ≠ []) :
    ds.foldr (fun d r => max (d + 1) r) 0 = 1 + ds.foldr max 0 := by
  induction ds with
  | nil => exact absurd rfl h
  | cons d ds ih =>
    cases ds with
    | nil => simp; omega
    | cons e es =>
      rw [List.foldr_cons, ih (by simp)]
      simp only [List.foldr_cons]
      omega

mutual

/-- C3 (auxiliary): the invariant holds after `level_calc` at any height. -/
theorem levelCalc_inv : ∀ (t : TB) (h : Nat), InvATB (levelCalc t h).1 h
  | .leaf, h => by
    simp [levelCalc, InvATB, InvKids]
  | .node cs, h => by
    simp only [levelCalc, InvATB]
    refine ⟨by simp, ?_, ?_, ?_⟩
    · intro hnil
      rw [levelCalcKids_fst] at hnil
      have hcs : cs = [] := by
        cases cs with
        | nil => rfl
        | cons a l => simp at hnil
      subst hcs
      simp [levelCalcKids]
    · intro hne
      have hcs : cs ≠ [] := by
        intro hc; subst hc; simp [levelCalcKids] at hne
      rw [levelCalcKids_snd, levelCalcKids_fst]
      have hmap : (cs.map (fun c => (levelCalc c (h + 1)).1)).map ATB.depth =
          cs.map (fun c => (levelCalc c (h + 1)).2) := by
        simp only [List.map_map]
        exact List.map_congr_left fun c _ => levelCalc_fst_depth c (h + 1)
      rw [hmap]
      have hne2 : cs.map (fun c => (levelCalc c (h + 1)).2) ≠ [] := by
        cases cs with
        | nil => exact absurd rfl hcs
        | cons a l => simp
      rw [foldl_max_acc, foldr_succ_max _ hne2]
      simp [maxNat]
    · exact levelCalcKids_inv cs (h + 1) 0

/-- C3 (auxiliary): the invariant holds for each annotated child. -/
theorem levelCalcKids_inv : ∀ (cs : List TB) (h : Nat) (maxd : Nat),
    InvKids (levelCalcKids cs h maxd).1 h
  | [], h, maxd => by simp [levelCalcKids, InvKids]
  | c :: rest, h, maxd => by
    simp only [levelCalcKids, InvKids]
    exact ⟨levelCalc_inv c h, levelCalcKids_inv rest h (max ((levelCalc c h).2 + 1) maxd)⟩

end

/-- C3: after `level_calc` from a top node with height 0 the annotated
tree satisfies the claimed invariant: root height 0, childless nodes have
depth 0, nodes with children have depth `1 + max(child depth)`, and every
child records its parent's height plus one. -/
theorem levelCalc_depth_height (t : TB) : InvATB (levelCalc t 0).1 0 :=
  levelCalc_inv t 0


/-! ## C9: the reference level in `process_album` (lines 5112-5137) -/

/-- The reference-level computation of `process_album`: with more than one
top-level work `single_work_album = 0`, else 1; for depth at least 3 the
reference level is `depth - single_work_album`, else `depth`. -/
def refLevel (numTops : Nat) (workPartLevels : Nat) : Nat :=
  let single_work_album := if 1 < numTops then 0 else 1
  if 3 ≤ workPartLevels then workPartLevels - single_work_album else workPartLevels

/-- C9: for a release with at least one top-level work (the loop in
`process_album` iterates over them), the reference level for a top work
whose trackback has depth `d = (levelCalc t 0).2` is `d - 1` exactly when
`d ≥ 3` and the release has a single top-level work, and `d` otherwise. -/
theorem refLevel_spec (t : TB) (n : Nat) (hn : 1 ≤ n) :
    (n = 1 → 3 ≤ (levelCalc t 0).2 →
      refLevel n (levelCalc t 0).2 = (levelCalc t 0).2 - 1) ∧
    (1 < n ∨ (levelCalc t 0).2 < 3 → refLevel n (levelCalc t 0).2 = (levelCalc t 0).2) := by
  constructor
  · intro h1 h3
    subst h1
    unfold refLevel
    simp [h3]
  · rintro (h1 | h3)
    · unfold refLevel
      simp only [if_pos h1]
      split <;> omega
    · unfold refLevel
      have h4 : ¬ 3 ≤ (levelCalc t 0).2 := by omega
      simp [h4]

/-- Witness for `refLevel_spec`: a depth-3 single-top-work tree. -/
theorem refLevel_spec_witness :
    refLevel 1 (levelCalc (TB.node [TB.node [TB.node [TB.leaf]]]) 0).2 =
      (levelCalc (TB.node [TB.node [TB.node [TB.leaf]]]) 0).2 - 1 :=
  (refLevel_spec (TB.node [TB.node [TB.node [TB.leaf]]]) 1 (by decide)).1 rfl (by decide)

/-! ## C10: `longest_common_sequence` (lines 2352-2374) -/

/-- The dictionary normally returned by `longest_common_sequence`. -/
structure LCSeqDict (α : Type) where
  sequence : Option (List α)
  length : Nat
  deriving Repr, DecidableEq

/-- `longest_common_sequence(list1, list2, minstart, maxstart)`: when
`maxstart < minstart` it returns the bare tuple `(None, 0)` (left
summand); otherwise it scans start offsets `k` in
`range(minstart, min(maxstart, min_len) + 1)` and end offsets `i` in
`range(k, min_len + 1)`, keeping the longest common run `list1[k:i] ==
list2[k:i]`, and returns the `{'sequence','length'}` dict (right
summand). -/
def longestCommonSequence {α : Type} [DecidableEq α] (list1 list2 : List α)
    (minstart maxstart : Nat) : (Option (List α) × Nat) ⊕ LCSeqDict α :=
  if maxstart < minstart then Sum.inl (none, 0)
  else
    let min_len := min list1.length list2.length
    let maxstart2 := min maxstart min_len + 1
    let r := (List.range' minstart (maxstart2 - minstart)).foldl (fun acc k =>
      (List.range' k (min_len + 1 - k)).foldl (fun (acc : Option (List α) × Nat) i =>
        if pySlice k i list1 = pySlice k i list2 ∧ acc.2 < i - k then
          (some (pySlice k i list1), i - k)
        else acc) acc)
      ((none : Option (List α)), 0)
    Sum.inr ⟨r.1, r.2⟩

/-- C10: with `maxstart < minstart` the function returns the bare pair
`(None, 0)`; in every other case it returns a `{'sequence', 'length'}`
dictionary — a differently-shaped value, not an error. -/
theorem longestCommonSequence_shape {α : Type} [DecidableEq α] (list1 list2 : List α)
    (minstart maxstart : Nat) :
    (maxstart < minstart →
      longestCommonSequence list1 list2 minstart maxstart = Sum.inl (none, 0)) ∧
    (minstart ≤ maxstart →
      ∃ d, longestCommonSequence list1 list2 minstart maxstart = Sum.inr d) := by
  constructor
  · intro h
    simp [longestCommonSequence, h]
  · intro h
    simp only [longestCommonSequence, if_neg (Nat.not_lt.mpr h)]
    exact ⟨_, rfl⟩

/-- Witness for `longestCommonSequence_shape` on `[1,2]` against `[1,3]`
with a violated and a satisfied precondition. -/
theorem longestCommonSequence_shape_witness :
    longestCommonSequence [1, 2] [1, 3] 1 0 = Sum.inl (none, 0) ∧
    longestCommonSequence [1, 2] [1, 3] 0 0 = Sum.inr ⟨some [1], 1⟩ :=
  ⟨(longestCommonSequence_shape [1, 2] [1, 3] 1 0).1 (by decide), by decide⟩

/-! ## `longest_common_substring` (lines 2327-2349)

The Python function fills the DP table `m[x][y]` = length of the longest
common suffix of `s1[:x]` and `s2[:y]`, tracking the running maximum
`longest` and its end position `x_longest` in iteration order, and returns
`{'string': s1[x_longest - longest : x_longest], 'start': x_longest -
longest, 'length': x_longest}` (the `length` field really holds the end
position, as in the source). -/

/-- The DP table entry `m[x][y]`: length of the longest common suffix of
`s1[:x]` and `s2[:y]` (the recurrence of the source). -/
def cslen {α : Type} [DecidableEq α] (s1 s2 : List α) : Nat → Nat → Nat
  | x + 1, y + 1 =>
    match s1.get? x, s2.get? y with
    | some a, some b => if a = b then cslen s1 s2 x y + 1 else 0
    | _, _ => 0
  | _, _ => 0

/-- One visit of the scan: update `(longest, x_longest)` when the current
cell exceeds the running maximum. -/
def lcsStep {α : Type} [DecidableEq α] (s1 s2 : List α) (st : Nat × Nat) (xy : Nat × Nat) :
    Nat × Nat :=
  if st.1 < cslen s1 s2 xy.1 xy.2 then (cslen s1 s2 xy.1 xy.2, xy.1) else st

/-- The iteration order of the two nested loops: `x` in `1..n` outer, `y`
in `1..m` inner. -/
def pairsProd (n m : Nat) : List (Nat × Nat) :=
  (List.range' 1 n).foldr (fun x acc => ((List.range' 1 m).map (fun y => (x, y))) ++ acc) []

/-- The result dictionary of `longest_common_substring`. -/
structure LCSubRes (α : Type) where
  string : List α
  start : Nat
  length : Nat
  deriving Repr, DecidableEq

/-- `longest_common_substring(s1, s2)` (works on strings and lists). -/
def longestCommonSubstring {α : Type} [DecidableEq α] (s1 s2 : List α) : LCSubRes α :=
  let st := (pairsProd s1.length s2.length).foldl (lcsStep s1 s2) (0, 0)
  ⟨pySlice (st.2 - st.1) st.2 s1, st.2 - st.1, st.2⟩

theorem mem_range1 (s n m : Nat) : m ∈ List.range' s n ↔ s ≤ m ∧ m < s + n := by
  rw [List.mem_range']
  constructor
  · rintro ⟨i, hi, rfl⟩; omega
  · intro ⟨h1, h2⟩; exact ⟨m - s, by omega, by omega⟩

theorem pairsProd_mem (n m : Nat) (p : Nat × Nat) :
    p ∈ pairsProd n m ↔ 1 ≤ p.1 ∧ p.1 ≤ n ∧ 1 ≤ p.2 ∧ p.2 ≤ m := by
  obtain ⟨x, y⟩ := p
  unfold pairsProd
  have key : ∀ (l : List Nat), (x, y) ∈
      l.foldr (fun x acc => ((List.range' 1 m).map (fun y => (x, y))) ++ acc) [] ↔
      x ∈ l ∧ y ∈ List.range' 1 m := by
    intro l
    induction l with
    | nil => simp
    | cons a rest ih =>
      simp only [List.foldr_cons, List.mem_append, List.mem_map, ih, List.mem_cons]
      constructor
      · rintro (⟨y0, hy0, heq⟩ | ⟨hx, hy⟩)
        · obtain ⟨h1, h2⟩ := Prod.mk.injEq .. ▸ heq
          simp only [Prod.mk.injEq] at heq
          exact ⟨Or.inl heq.1.symm, heq.2 ▸ hy0⟩
        · exact ⟨Or.inr hx, hy⟩
      · rintro ⟨hx | hx, hy⟩
        · exact Or.inl ⟨y, hy, by rw [hx]⟩
        · exact Or.inr ⟨hx, hy⟩
  rw [key, mem_range1, mem_range1]
  omega

theorem cslen_le_fst {α : Type} [DecidableEq α] (s1 s2 : List α) :
    ∀ x y, cslen s1 s2 x y ≤ x := by
  intro x
  induction x with
  | zero => intro y; simp [cslen]
  | succ x ih =>
    intro y
    cases y with
    | zero => simp [cslen]
    | succ y =>
      simp only [cslen]
      cases s1.get? x <;> cases s2.get? y <;> simp
      split
      · exact Nat.succ_le_succ (ih y)
      · simp

theorem get_mid {α : Type} (w z : List α) (a : α) : (w ++ a :: z).get? w.length = some a := by
  induction w with
  | nil => rfl
  | cons c cs ih => simpa using ih

theorem cslen_occ {α : Type} [DecidableEq α] :
    ∀ (t u1 v1 u2 v2 : List α),
      t.length ≤ cslen (u1 ++ t ++ v1) (u2 ++ t ++ v2) (u1.length + t.length)
        (u2.length + t.length) := by
  intro t
  induction t using List.reverseRecOn with
  | nil => intro u1 v1 u2 v2; simp
  | append_singleton ts a ih =>
    intro u1 v1 u2 v2
    have e1 : u1 ++ (ts ++ [a]) ++ v1 = (u1 ++ ts) ++ a :: v1 := by simp
    have e2 : u2 ++ (ts ++ [a]) ++ v2 = (u2 ++ ts) ++ a :: v2 := by simp
    have hl : (ts ++ [a]).length = ts.length + 1 := by simp
    rw [e1, e2, hl]
    have hx : u1.length + (ts.length + 1) = (u1.length + ts.length) + 1 := by omega
    have hy : u2.length + (ts.length + 1) = (u2.length + ts.length) + 1 := by omega
    rw [hx, hy]
    simp only [cslen]
    have g1 : ((u1 ++ ts) ++ a :: v1).get? (u1.length + ts.length) = some a := by
      have := get_mid (u1 ++ ts) v1 a
      simpa using this
    have g2 : ((u2 ++ ts) ++ a :: v2).get? (u2.length + ts.length) = some a := by
      have := get_mid (u2 ++ ts) v2 a
      simpa using this
    rw [g1, g2]
    simp only [eq_self_iff_true, if_true]
    have ihx := ih u1 (a :: v1) u2 (a :: v2)
    have e3 : u1 ++ ts ++ a :: v1 = (u1 ++ ts) ++ a :: v1 := by simp
    have e4 : u2 ++ ts ++ a :: v2 = (u2 ++ ts) ++ a :: v2 := by simp
    rw [e3, e4] at ihx
    omega

theorem foldl_lcsStep_mono {α : Type} [DecidableEq α] (s1 s2 : List α) :
    ∀ (l : List (Nat × Nat)) (st : Nat × Nat),
      st.1 ≤ (l.foldl (lcsStep s1 s2) st).1 := by
  intro l
  induction l with
  | nil => intro st; simp
  | cons p ps ih =>
    intro st
    simp only [List.foldl_cons]
    refine le_trans ?_ (ih (lcsStep s1 s2 st p))
    unfold lcsStep
    split
    · simp
      omega
    · simp

theorem foldl_lcsStep_visits {α : Type} [DecidableEq α] (s1 s2 : List α) :
    ∀ (l : List (Nat × Nat)) (st : Nat × Nat) (p : Nat × Nat), p ∈ l →
      cslen s1 s2 p.1 p.2 ≤ (l.foldl (lcsStep s1 s2) st).1 := by
  intro l
  induction l with
  | nil => intro st p hp; simp at hp
  | cons q qs ih =>
    intro st p hp
    simp only [List.foldl_cons]
    rcases List.mem_cons.mp hp with rfl | hmem
    · refine le_trans ?_ (foldl_lcsStep_mono s1 s2 qs (lcsStep s1 s2 st p))
      unfold lcsStep
      split
      · simp
      · omega
    · exact ih (lcsStep s1 s2 st q) p hmem

theorem foldl_lcsStep_inv {α : Type} [DecidableEq α] (s1 s2 : List α) :
    ∀ (l : List (Nat × Nat)) (st : Nat × Nat),
      (∀ p ∈ l, p.1 ≤ s1.length) → st.1 ≤ st.2 → st.2 ≤ s1.length →
      (l.foldl (lcsStep s1 s2) st).1 ≤ (l.foldl (lcsStep s1 s2) st).2 ∧
      (l.foldl (lcsStep s1 s2) st).2 ≤ s1.length := by
  intro l
  induction l with
  | nil => intro st _ h1 h2; exact ⟨h1, h2⟩
  | cons q qs ih =>
    intro st hl h1 h2
    simp only [List.foldl_cons]
    have hq : q.1 ≤ s1.length := hl q (List.mem_cons_self q qs)
    have hrest : ∀ p ∈ qs, p.1 ≤ s1.length := fun p hp => hl p (List.mem_cons_of_mem q hp)
    refine ih (lcsStep s1 s2 st q) hrest ?_ ?_
    · unfold lcsStep
      split
      · exact cslen_le_fst s1 s2 q.1 q.2
      · exact h1
    · unfold lcsStep
      split
      · exact hq
      · exact h2

/-- Core bound: any common contiguous segment of `s1` and `s2` is no
longer than the string `longest_common_substring` returns. -/
theorem lcs_ge_common {α : Type} [DecidableEq α] (s1 s2 t : List α)
    (h1 : IsSeg t s1) (h2 : IsSeg t s2) :
    t.length ≤ (longestCommonSubstring s1 s2).string.length := by
  obtain ⟨u1, v1, hs1⟩ := h1
  obtain ⟨u2, v2, hs2⟩ := h2
  unfold longestCommonSubstring
  set st := (pairsProd s1.length s2.length).foldl (lcsStep s1 s2) (0, 0) with hst
  have hinv := foldl_lcsStep_inv s1 s2 (pairsProd s1.length s2.length) (0, 0)
    (fun p hp => ((pairsProd_mem _ _ p).mp hp).2.1) (by simp) (by simp)
  rw [← hst] at hinv
  have hslice : (pySlice (st.2 - st.1) st.2 s1).length = st.1 := by
    unfold pySlice
    rw [List.length_take, List.length_drop]
    omega
  simp only [hslice]
  cases t with
  | nil => simp
  | cons c ts =>
    have hmem : (u1.length + (c :: ts).length, u2.length + (c :: ts).length) ∈
        pairsProd s1.length s2.length := by
      rw [pairsProd_mem]
      refine ⟨?_, ?_, ?_, ?_⟩
      · simp only [List.length_cons]; omega
      · rw [hs1]; simp only [List.length_append, List.length_cons]; omega
      · simp only [List.length_cons]; omega
      · rw [hs2]; simp only [List.length_append, List.length_cons]; omega
    have hvisit := foldl_lcsStep_visits s1 s2 (pairsProd s1.length s2.length) (0, 0)
      _ hmem
    rw [← hst] at hvisit
    have hocc : (c :: ts).length ≤ cslen s1 s2 (u1.length + (c :: ts).length)
        (u2.length + (c :: ts).length) := by
      rw [hs1, hs2]
      exact cslen_occ (c :: ts) u1 v1 u2 v2
    exact le_trans hocc hvisit

/-! ## Character-arithmetic bridges (for reasoning about `pyLower`). -/

theorem charLe_iff (a b : Char) : a ≤ b ↔ a.toNat ≤ b.toNat := by
  simp [Char.le_def, Char.toNat, UInt32.le_def, BitVec.le_def, UInt32.toNat, UInt32.toBitVec]

theorem toNat_ofNat_lt (n : Nat) (h : n < 55296) : (Char.ofNat n).toNat = n := by
  have hv : n.isValidChar := Or.inl h
  rw [Char.ofNat, dif_pos hv]
  simp [Char.ofNatAux, Char.toNat, UInt32.ofNat', UInt32.toNat, BitVec.toNat_ofNat]

theorem isLower_iff (c : Char) : c.isLower = true ↔ 97 ≤ c.toNat ∧ c.toNat ≤ 122 := by
  simp [Char.isLower, Char.toNat, UInt32.le_def, ge_iff_le, BitVec.le_def, UInt32.toNat,
    UInt32.toBitVec]

theorem isUpper_iff (c : Char) : c.isUpper = true ↔ 65 ≤ c.toNat ∧ c.toNat ≤ 90 := by
  simp [Char.isUpper, Char.toNat, UInt32.le_def, ge_iff_le, BitVec.le_def, UInt32.toNat,
    UInt32.toBitVec]

theorem isDigit_iff (c : Char) : c.isDigit = true ↔ 48 ≤ c.toNat ∧ c.toNat ≤ 57 := by
  simp [Char.isDigit, Char.toNat, UInt32.le_def, ge_iff_le, BitVec.le_def, UInt32.toNat,
    UInt32.toBitVec]

theorem isWordA_toNat_le (c : Char) (h : isWordA c = true) : c.toNat ≤ 122 := by
  unfold isWordA at h
  simp only [Bool.or_eq_true, Char.isAlphanum, Char.isAlpha] at h
  rcases h with ((h | h) | h) | h
  · exact le_trans (isUpper_iff c |>.mp h).2 (by omega)
  · exact (isLower_iff c |>.mp h).2
  · exact le_trans (isDigit_iff c |>.mp h).2 (by omega)
  · have : c = '_' := by simpa using h
    subst this
    decide

/-- `unicode.lower()` keeps ASCII word characters inside the ASCII word
class. -/
theorem pyLower_isWordA (c : Char) (h : isWordA c = true) : isWordA (pyLower c) = true := by
  have hle := isWordA_toNat_le c h
  unfold pyLower
  split
  · next hAZ =>
    obtain ⟨h1, h2⟩ := hAZ
    rw [charLe_iff] at h1 h2
    have hA : ('A' : Char).toNat = 65 := by decide
    have hZ : ('Z' : Char).toNat = 90 := by decide
    rw [hA] at h1
    rw [hZ] at h2
    have ht := toNat_ofNat_lt (c.toNat + 32) (by omega)
    unfold isWordA
    simp only [Bool.or_eq_true, Char.isAlphanum, Char.isAlpha]
    exact Or.inl (Or.inl (Or.inr ((isLower_iff _).mpr (by omega))))
  · split
    · next h2 => omega
    · split
      · next h3 => omega
      · exact h

/-! ## Roman numerals: `from_roman` (lines 2257-2277) and
`replace_roman_numerals` (lines 2240-2254)

`replace_roman_numerals` finds, case-insensitively, every maximal-munch
match of
`\b(M{0,4}(CM|CD|D?)?C{0,3}(XC|XL|L?)?X{0,3}(IX|IV|V?)?I{0,3})\b(\.|:|,|;|$)`
and then, for each non-empty captured numeral, substitutes every
case-sensitive occurrence of `numeral(\.|:|,|;|$)` by
`str(from_roman(numeral))`.  The regex alternation/greediness order is
reproduced by a small candidate-list matcher. -/

/-- A matcher fragment: from a position, the candidate end positions in
backtracking preference order. -/
abbrev RxM := Nat → List Nat

/-- Sequencing of fragments (preference order preserved). -/
def rxSeq (ms : List RxM) : RxM := fun p =>
  ms.foldl (fun ps m => ps.foldr (fun x acc => m x ++ acc) []) [p]

/-- Alternation (earlier alternatives preferred). -/
def rxAlt (ms : List RxM) : RxM := fun p => ms.foldr (fun m acc => m p ++ acc) []

/-- An optional group `(...)?` (presence preferred). -/
def rxOpt (m : RxM) : RxM := fun p => m p ++ [p]

/-- Length of the run of `cls` characters starting at `p`. -/
def runLen (s : Txt) (cls : Char → Bool) (p : Nat) : Nat :=
  ((s.drop p).takeWhile cls).length

/-- Greedy bounded repetition `c{lo,hi}` of a character class. -/
def rxRep (s : Txt) (cls : Char → Bool) (lo hi : Nat) : RxM := fun p =>
  let r := min hi (runLen s cls p)
  (List.range' lo (r + 1 - lo)).reverse.map (fun k => p + k)

/-- A case-insensitive literal (given in lowercase). -/
def rxLitCI (s : Txt) (t : Txt) : RxM := fun p =>
  if lowerTxt (pySlice p (p + t.length) s) = t then [p + t.length] else []

/-- The word-boundary test `\b` for a word-character class. -/
def boundaryAt (wp : Char → Bool) (s : Txt) (p : Nat) : Bool :=
  let before := match p with
    | 0 => false
    | q + 1 => (match s.get? q with | some c => wp c | none => false)
  let after := match s.get? p with | some c => wp c | none => false
  before != after

/-- The numeral group of the `replace_roman_numerals` pattern:
`M{0,4}(CM|CD|D?)?C{0,3}(XC|XL|L?)?X{0,3}(IX|IV|V?)?I{0,3}`. -/
def romanCoreSub (s : Txt) : RxM :=
  rxSeq [rxRep s (fun c => pyLower c = 'm') 0 4,
    rxOpt (rxAlt [rxLitCI s ['c', 'm'], rxLitCI s ['c', 'd'],
      rxRep s (fun c => pyLower c = 'd') 0 1]),
    rxRep s (fun c => pyLower c = 'c') 0 3,
    rxOpt (rxAlt [rxLitCI s ['x', 'c'], rxLitCI s ['x', 'l'],
      rxRep s (fun c => pyLower c = 'l') 0 1]),
    rxRep s (fun c => pyLower c = 'x') 0 3,
    rxOpt (rxAlt [rxLitCI s ['i', 'x'], rxLitCI s ['i', 'v'],
      rxRep s (fun c => pyLower c = 'v') 0 1]),
    rxRep s (fun c => pyLower c = 'i') 0 3]

/-- The punctuation alternatives `(\.|:|,|;...)` shared by the roman
patterns (`$` handled separately). -/
def romanPuncts : List Char := ['.', ':', ',', ';']

/-- One match attempt of the full `replace_roman_numerals` pattern at
position `p`: on success, the numeral end and the match end. -/
def romanFindAt (s : Txt) (p : Nat) : Option (Nat × Nat) :=
  if boundaryAt isWordU s p then
    (romanCoreSub s p).findSome? (fun e =>
      if boundaryAt isWordU s e then
        match s.get? e with
        | some c => if romanPuncts.contains c then some (e, e + 1) else none
        | none => some (e, e)
      else none)
  else none

/-- `p.findall(s)`: scan left to right, skipping over matches (advancing
one position after a zero-width match), collecting the captured numeral
group of each match (possibly empty). -/
def romanFindAll (s : Txt) : Nat → Nat → List Txt
  | 0, _ => []
  | fuel + 1, p =>
    if s.length < p then []
    else
      match romanFindAt s p with
      | some r =>
        pySlice p r.1 s ::
          (if r.2 ≤ p then romanFindAll s fuel (p + 1) else romanFindAll s fuel r.2)
      | none => romanFindAll s fuel (p + 1)

/-- The fuelled worker of `romanSub`; fuel `s.length` (as supplied by
`romanSub`) suffices since every step consumes at least one character. -/
def romanSubF (roman digits : Txt) : Nat → Txt → Txt
  | _, [] => []
  | 0, s => s
  | fuel + 1, c :: rest =>
    if roman ≠ [] ∧ leadMatch roman (c :: rest) then
      match (c :: rest).drop roman.length with
      | [] => digits
      | d :: rest2 =>
        if romanPuncts.contains d then digits ++ romanSubF roman digits fuel rest2
        else c :: romanSubF roman digits fuel rest
    else c :: romanSubF roman digits fuel rest

/-- `re.sub(roman + r'(\.|:|,|;|$)', digits, s)` (case-sensitive, every
non-overlapping occurrence). -/
def romanSub (roman digits s : Txt) : Txt := romanSubF roman digits s.length s

/-- The subtractive numeral table of `from_roman`. -/
def romanMap : List (Txt × Nat) :=
  [(['M'], 1000), (['C', 'M'], 900), (['D'], 500), (['C', 'D'], 400), (['C'], 100),
   (['X', 'C'], 90), (['L'], 50), (['X', 'L'], 40), (['X'], 10),
   (['I', 'X'], 9), (['V'], 5), (['I', 'V'], 4), (['I'], 1)]

/-- The `while s[index:index+len(numeral)] == numeral` loop of
`from_roman`: number of consecutive occurrences of `numeral` from
`index`.  The fuel (always instantiated with `s.length + 1`) bounds the
repetitions, which consume at least one character each. -/
def whileNumeral (numeral s : Txt) : Nat → Nat → Nat
  | 0, _ => 0
  | fuel + 1, index =>
    if pySlice index (index + numeral.length) s = numeral ∧ numeral ≠ [] then
      1 + whileNumeral numeral s fuel (index + numeral.length)
    else 0

/-- `from_roman(s)`: scan the numeral table, accumulating `(index,
result)`. -/
def fromRoman (s : Txt) : Nat :=
  (romanMap.foldl (fun (acc : Nat × Nat) nm =>
    let reps := whileNumeral nm.1 s (s.length + 1) acc.1
    (acc.1 + reps * nm.1.length, acc.2 + reps * nm.2)) (0, 0)).2

/-- Decimal digit string of a natural number (`unicode(n)`). -/
def natTxt (n : Nat) : Txt := (toString n).toList

/-- `replace_roman_numerals(s)`: find all pattern matches, then for each
non-empty captured numeral substitute `numeral + punctuation` by the
`from_roman` digits throughout the current string. -/
def replaceRomanNumerals (s : Txt) : Txt :=
  (romanFindAll s (s.length + 1) 0).foldl
    (fun acc r => if r ≠ [] then romanSub r (natTxt (fromRoman r)) acc else acc) s

/-! ## C7: `boil` (lines 7108-7140)

`boil` lowercases, removes the synonym marker, folds the orthographic
equivalences, NFD-normalizes dropping combining marks, removes every
non-word character (`re.sub(r'\W*', '', s)` with ASCII classes — note
that the underscore is a word character and is kept), strips, lowercases
again and finally strips every trailing `s` or apostrophe
(`rstrip("s'")`).  The NFD step is modelled for the Latin-1 letter block
(precomposed letter maps to its base letter, combining marks dropped);
characters outside the modelled repertoire pass through and are then
removed by the word-character filter, exactly as any non-ASCII character
is in the source. -/

/-- The synonym marker `self.EQ`. -/
def eqMark : Txt := "EQ_TO_BE_REVERSED".toList

/-- NFD-decompose-and-drop-marks for one character (Latin-1 letters and
the combining-mark block). -/
def nfdChar (c : Char) : Txt :=
  let n := c.toNat
  if 0x300 ≤ n ∧ n ≤ 0x36F then []
  else if 0xE0 ≤ n ∧ n ≤ 0xE5 then ['a']
  else if n = 0xE7 then ['c']
  else if 0xE8 ≤ n ∧ n ≤ 0xEB then ['e']
  else if 0xEC ≤ n ∧ n ≤ 0xEF then ['i']
  else if n = 0xF1 then ['n']
  else if 0xF2 ≤ n ∧ n ≤ 0xF6 then ['o']
  else if 0xF9 ≤ n ∧ n ≤ 0xFC then ['u']
  else if n = 0xFD ∨ n = 0xFF then ['y']
  else [c]

/-- `PartLevels.boil`. -/
def boil (s : Txt) : Txt :=
  let s1 := lowerTxt s
  let s2 := strReplace (lowerTxt eqMark) [] s1
  let s3 := strReplace "sch".toList "sh".toList s2
  let s4 := strReplace [Char.ofNat 0xDF] "ss".toList s3
  let s5 := strReplace "sz".toList "ss".toList s4
  let s6 := strReplace [Char.ofNat 0x153] "oe".toList s5
  let s7 := strReplace "oe".toList "o".toList s6
  let s8 := strReplace [Char.ofNat 0xFC] "ue".toList s7
  let s9 := strReplace "ue".toList "u".toList s8
  let s10 := strReplace "ae".toList "a".toList s9
  let s11 := s10.foldr (fun c acc => nfdChar c ++ acc) []
  let s12 := s11.filter isWordA
  let s13 := lowerTxt (pyStrip s12)
  rstripIf (fun c => c = 's' || c = aposC) s13

theorem mem_stripIf {p : Char → Bool} {l : Txt} {c : Char} (h : c ∈ stripIf p l) : c ∈ l := by
  unfold stripIf rstripIf lstripIf at h
  rw [List.mem_reverse] at h
  have h2 := List.dropWhile_subset _ h
  rw [List.mem_reverse] at h2
  exact List.dropWhile_subset _ h2

theorem mem_rstripIf {p : Char → Bool} {l : Txt} {c : Char} (h : c ∈ rstripIf p l) : c ∈ l := by
  unfold rstripIf at h
  rw [List.mem_reverse] at h
  have h2 := List.dropWhile_subset _ h
  rw [List.mem_reverse] at h2
  exact h2

/-- C7 (amended): every character of `boil s` is an ASCII word character
(letter, digit or underscore) — the filter removes exactly the ASCII
non-word characters, so an underscore survives. -/
theorem boil_wordchars (s : Txt) : ∀ c ∈ boil s, isWordA c = true := by
  intro c hc
  unfold boil at hc
  have h13 := mem_rstripIf hc
  simp only [lowerTxt, List.mem_map] at h13
  obtain ⟨c0, hc0, rfl⟩ := h13
  have h12 := mem_stripIf hc0
  rw [List.mem_filter] at h12
  exact pyLower_isWordA c0 h12.2

/-- Witness for `boil_wordchars` at a concrete boiled character. -/
theorem boil_wordchars_witness : isWordA 'q' = true :=
  boil_wordchars "q!".toList 'q' (by decide)

/-- C7 counterexample: `boil "_" = "_"`, whose character is not
alphanumeric (the claim says no non-alphanumeric character survives), and
`boil "press" = "pre"` — every trailing `s` is stripped, not at most one
possessive. -/
theorem boil_underscore_cex :
    boil "_".toList = "_".toList ∧ ('_'.isAlphanum = false) ∧
    boil "press".toList = "pre".toList := by
  decide

/-- C8 (code bug exhibit): in `"I. II."` both `"I."` and `"II."` are bare
roman numerals followed by punctuation, and `from_roman "II" = 2`, yet
`replace_roman_numerals` yields `"1 I1"`: the global substitution for the
first numeral `I` also rewrites the tail of the later numeral `II.`,
which is then never converted — instead of the claimed `"1 2"`. -/
theorem replaceRomanNumerals_interference :
    replaceRomanNumerals "I. II.".toList = "1 I1".toList ∧
    fromRoman "II".toList = 2 ∧ fromRoman "I".toList = 1 := by
  decide

/-! ## The `diff_pair` preprocessing machinery (lines 6619-6808)

All regex classes below are ASCII (`p1`, `p2`, the replacement and
synonym patterns carry no `re.UNICODE` flag — for the synonym patterns
the intended flags are in fact passed as the `count` argument of
`re.sub`, so those substitutions are case-sensitive and capped at 34
replacements); the tokenizers and the `strip_parent_from_work` pattern
are compiled with `re.UNICODE`. -/

/-- The `p1` numeral group of `diff_pair` (line 6648):
`M{0,4}(CM|CD|D?C{0,3})(XC|XL|L?X{0,3})(IX|IV|V?I{0,3})`. -/
def romanCoreP1 (s : Txt) : RxM :=
  rxSeq [rxRep s (fun c => pyLower c = 'm') 0 4,
    rxAlt [rxLitCI s ['c', 'm'], rxLitCI s ['c', 'd'],
      rxSeq [rxRep s (fun c => pyLower c = 'd') 0 1, rxRep s (fun c => pyLower c = 'c') 0 3]],
    rxAlt [rxLitCI s ['x', 'c'], rxLitCI s ['x', 'l'],
      rxSeq [rxRep s (fun c => pyLower c = 'l') 0 1, rxRep s (fun c => pyLower c = 'x') 0 3]],
    rxAlt [rxLitCI s ['i', 'x'], rxLitCI s ['i', 'v'],
      rxSeq [rxRep s (fun c => pyLower c = 'v') 0 1, rxRep s (fun c => pyLower c = 'i') 0 3]]]

/-- The trailing punctuation class `[\s|\.|:|,|;]` of `p1`. -/
def p1Punct (c : Char) : Bool :=
  isSpaceA c || c = '|' || c = '.' || c = ':' || c = ',' || c = ';'

/-- `p1.sub('', s)`: remove a leading `\W*` run followed by a roman
numeral at a word boundary and one punctuation character.  Only the
maximal `\W*` run can start the match (a shorter one puts `\b` inside the
run), and the numeral must be non-empty (an empty numeral would need a
word character in the punctuation class). -/
def p1Strip (s : Txt) : Txt :=
  let k := runLen s (fun c => !(isWordA c)) 0
  if boundaryAt isWordA s k then
    match (romanCoreP1 s k).findSome? (fun e =>
        if boundaryAt isWordA s e then
          match s.get? e with
          | some c => if p1Punct c then some e else none
          | none => none
        else none) with
    | some e => s.drop (e + 1)
    | none => s
  else s

/-- `p2.sub('', s)` for `p2 = ^\W*\d+[.):-]` (line 6652): remove a
leading non-word run, a digit run and one of `. ) : -`. -/
def p2Strip (s : Txt) : Txt :=
  let k := runLen s (fun c => !(isWordA c)) 0
  let d := runLen s isDigitA k
  if d = 0 then s
  else
    match s.get? (k + d) with
    | some c => if c ∈ ['.', ')', ':', '-'] then s.drop (k + d + 1) else s
    | none => s

/-- One `removewords` entry applied to the `(mb, ti)` pair (lines
6668-6676): entries starting with a space are skipped (`prefix[0] != " "`,
which is every entry of the default list). -/
def applyRemoveword (pair : Txt × Txt) (pfx : Txt) : Txt × Txt :=
  match pfx with
  | [] => pair
  | c :: _ =>
    if c ≠ ' ' then
      let p2 := lstripIf isSpaceA (lowerTxt pfx)
      let mb := if leadMatch p2 (lowerTxt pair.1) then pair.1.drop p2.length else pair.1
      let ti := if leadMatch p2 (lowerTxt pair.2) then pair.2.drop p2.length else pair.2
      (mb, ti)
    else pair

/-- One pass of the prefix-stripping loop (lines 6664-6678). -/
def prefixStep (removewords : List Txt) (pair : Txt × Txt) : Txt × Txt :=
  let mb := pyStrip (p2Strip (p1Strip pair.1))
  let ti := pyStrip (p2Strip (p1Strip pair.2))
  let pair2 := removewords.foldl applyRemoveword (mb, ti)
  (pyStrip pair2.1, pyStrip pair2.2)

/-- Replacement/synonym pair parsing shared strip:
`.strip("' ").strip('"')`. -/
def tupStrip (t : Txt) : Txt := pyStripChars ['"'] (pyStripChars [aposC, ' '] t)

/-- `cwp_replacements` parsing (lines 6685-6698); malformed entries are
skipped (their only effect is an error tag). -/
def parseReplacements (raw : Txt) : List (Txt × Txt) :=
  (splitOnC '/' raw).foldr (fun rep acc =>
    match splitOnC ',' (pyStripChars [' ', '(', ')'] rep) with
    | [a, b] => (tupStrip a, tupStrip b) :: acc
    | _ => acc) []

/-- A synonym entry is rejected when blank or containing a character
outside `\w | &` (lines 6710-6724). -/
def synBad (t : Txt) : Bool :=
  t.isEmpty || t.any (fun c => !(isWordU c || c = '|' || c = '&'))

/-- `cwp_synonyms` parsing (lines 6703-6734). -/
def parseSynonyms (raw : Txt) : List (Txt × Txt) :=
  (splitOnC '/' raw).foldr (fun syn acc =>
    match splitOnC ',' (pyStripChars [' ', '(', ')'] syn) with
    | [a0, b0] =>
      let a := tupStrip a0
      let b := tupStrip b0
      if synBad a || synBad b then acc else (a, b) :: acc
    | _ => acc) []

/-- `re.sub(r'\b' + re.escape(key) + r'\b', rep, s, count)` with ASCII
word boundaries, case-sensitive, scanning left to right; `none` count
means unlimited. -/
def wordSubF (key rep : Txt) (s : Txt) : Nat → Nat → Option Nat → Txt
  | 0, p, _ => s.drop p
  | fuel + 1, p, cnt =>
    match s.get? p with
    | none => []
    | some c =>
      if cnt ≠ some 0 ∧ key ≠ [] ∧ leadMatch key (s.drop p) ∧
          boundaryAt isWordA s p ∧ boundaryAt isWordA s (p + key.length) then
        rep ++ wordSubF key rep s fuel (p + key.length) (cnt.map (fun n => n - 1))
      else c :: wordSubF key rep s fuel (p + 1) cnt

/-- Word-bounded literal substitution. -/
def wordSub (key rep : Txt) (cnt : Option Nat) (s : Txt) : Txt :=
  wordSubF key rep s (s.length + 1) 0 cnt

/-- Is a replacement key of the `!!pattern!!` regex form (line 6742)? -/
def isBangForm (key : Txt) : Bool :=
  (key.get? 0 = some '!') && (key.get? 1 = some '!') &&
    (key.get? (key.length - 1) = some '!') && (key.get? (key.length - 2) = some '!')

/-- One replacement applied to `ti` (lines 6739-6747).  A `!!…!!` key
holds a user regex, which is outside the modelled repertoire (the default
configuration has none); it is modelled as a plain substring replace of
the inner text. -/
def applyReplacement (s : Txt) (kv : Txt × Txt) : Txt :=
  if isBangForm kv.1 then strReplace (pySlice 2 (kv.1.length - 2) kv.1) kv.2 s
  else wordSub kv.1 kv.2 none s

/-- One synonym pair applied to the `(mb_test, ti_test)` pair (lines
6755-6778): first `equiv → equiv+EQ`, then `key → EQ+equiv`, each on
`mb_test` then `ti_test`, case-sensitively with replacement count 34 (the
intended flags are passed in the count position). -/
def applySynonym (st : Txt × Txt) (kv : Txt × Txt) : Txt × Txt :=
  let equo := kv.2 ++ eqMark
  let syno := eqMark ++ kv.2
  let mb1 := wordSub kv.2 equo (some 34) st.1
  let ti1 := wordSub kv.2 equo (some 34) st.2
  let mb2 := wordSub kv.1 syno (some 34) mb1
  let ti2 := wordSub kv.1 syno (some 34) ti1
  (mb2, ti2)

/-- `reverse_syn` (lines 7089-7106): put the original synonym spelling
back and drop the markers. -/
def reverseSyn (term : Txt) (syns : List (Txt × Txt)) : Txt :=
  syns.foldl (fun t kv =>
    let t2 := wordSub (eqMark ++ kv.2) kv.1 none t
    strReplace eqMark [] t2) term

/-- The options consulted by `diff_pair`, with the plugin defaults. -/
structure CwpOpts where
  removewords_p : Txt
  replacements : Txt
  synonyms : Txt
  granularity : Nat
  proximity : Int
  end_proximity : Int
  substring_match : Nat

/-- The default option values from `plugin_options` (lines 1023-1066,
1051-1066); `cwp_removewords_p` equals `cwp_removewords` since
`cwp_level0_works` defaults to `False` (line 4181). -/
def defaultOpts : CwpOpts where
  removewords_p := (" part, act, scene, movement, movt, no., no , n., n , nr., nr , book , the ,"
    ++ " a , la , le , un , une , el , il , (part), tableau, from ").toList
  replacements := "(words to be replaced, replacement words) / (please blank me, ) / (etc, etc)".toList
  synonyms := ("(1, one) / (2, two) / (3, three) / (&, and) / (Rezitativ, Recitativo) / "
    ++ "(Recitativo, Recitative) / (Arie, Aria)").toList
  granularity := 1
  proximity := 2
  end_proximity := 1
  substring_match := 66

/-! ## `strip_parent_from_work` (lines 6516-6617), `extend=False` path

The pattern is `(.*\s|^)(\W*P\w*\W?)(.*)` with `re.IGNORECASE |
re.UNICODE`, where `P` is the parent with every non-word character first
replaced by a space and every space then replaced by `\W{0,2}`.  A
`search` can only succeed from position 0 (any later `.*\s` start is
subsumed by a longer `.*`), so the matcher tries the `.*\s` prefix ends
greedily (longest first), then the `^` branch, and within each the
group-2 candidates in backtracking order. -/

/-- A star `c*` over a character class (greedy). -/
def rxStarCls (s : Txt) (cls : Char → Bool) : RxM := fun p => rxRep s cls 0 s.length p

/-- The word chunks (`some run`) and single-space gaps (`none`) of the
cleaned parent. -/
def patElemsF : Nat → Txt → List (Option Txt)
  | 0, _ => []
  | _, [] => []
  | fuel + 1, c :: rest =>
    if isWordU c then
      some ((c :: rest).takeWhile isWordU) :: patElemsF fuel ((c :: rest).dropWhile isWordU)
    else
      none :: patElemsF fuel rest

/-- Pattern elements of a cleaned parent string. -/
def patElems (clean : Txt) : List (Option Txt) := patElemsF (clean.length + 1) clean

/-- Group 2 of the strip pattern: `\W*`, the parent chunks with `\W{0,2}`
gaps (chunks case-insensitive), then `\w*\W?`. -/
def group2M (s : Txt) (elems : List (Option Txt)) : RxM :=
  rxSeq ([rxStarCls s (fun c => !(isWordU c))] ++
    elems.map (fun e =>
      match e with
      | some t => rxLitCI s (lowerTxt t)
      | none => rxRep s (fun c => !(isWordU c)) 0 2) ++
    [rxStarCls s isWordU, rxRep s (fun c => !(isWordU c)) 0 1])

/-- The candidate end positions of group 1, in preference order: the
`.*\s` ends (longest first), then the `^` branch. -/
def g1Candidates (s : Txt) : List Nat :=
  (((List.range s.length).filter (fun j =>
      match s.get? j with
      | some c => isSpaceA c
      | none => false)).reverse.map (fun j => j + 1)) ++ [0]

/-- `p.search(work)`: the group-1 end and group-2 end of the first match
in backtracking order, if any. -/
def stripParentSearch (s : Txt) (elems : List (Option Txt)) : Option (Nat × Nat) :=
  (g1Candidates s).findSome? (fun g1e =>
    match (group2M s elems g1e).head? with
    | some e2 => some (g1e, e2)
    | none => none)

/-- `strip_parent_from_work(work, parent, part_level, extend=False)`:
on a match the stripped work is `group1 + '…' + group3` (or `group3` when
group 1 is empty); otherwise the work is returned unchanged.  Returns
`(stripped_work, parent)`. -/
def stripParentFromWork (work parent : Txt) : Txt × Txt :=
  let clean := parent.map (fun c => if !(isWordU c) then ' ' else c)
  let elems := patElems clean
  match stripParentSearch work elems with
  | some r =>
    let g1 := pySlice 0 r.1 work
    let g3 := work.drop r.2
    (if g1 ≠ [] then g1 ++ [Char.ofNat 0x2026] ++ g3 else g3, parent)
  | none => (work, parent)

/-! ## Tokenizers and split of `diff_pair` (lines 6815-6867) -/

/-- `re.split(r';\s|:\s|\.\s|\-\s', s, maxsplit)` (ASCII classes); each
separator is one of `; : . -` followed by a whitespace character.
`maxsplit` is positive in every use (the plugin passes
`cwp_granularity`, default 1). -/
def headIsSpace : Txt → Bool
  | d :: _ => isSpaceA d
  | [] => false

def splitPuncGo : Nat → Txt → Nat → Txt → List Txt
  | 0, rest, _, cur => [cur.reverse ++ rest]
  | _ + 1, [], _, cur => [cur.reverse]
  | fuel + 1, c :: rest, n, cur =>
    if n ≠ 0 ∧ c ∈ [';', ':', '.', '-'] ∧ headIsSpace rest then
      cur.reverse :: splitPuncGo fuel (rest.drop 1) (n - 1) []
    else splitPuncGo fuel rest n (c :: cur)

/-- The work-splitting of `mb_test` (line 6815). -/
def splitPunc (s : Txt) (maxsplit : Nat) : List Txt :=
  splitPuncGo (s.length + 1) s maxsplit []

/-- Is the character at `p` a Unicode word character? -/
def wordAt (s : Txt) (p : Nat) : Bool :=
  match s.get? p with
  | some c => isWordU c
  | none => false

/-- `re.findall(r"\b\w+?\b|\B\&\B", s, re.UNICODE)`: the maximal word
runs, plus lone ampersands not adjacent to word characters. -/
def findWordTokensF (s : Txt) : Nat → Nat → List Txt
  | 0, _ => []
  | fuel + 1, p =>
    match s.get? p with
    | none => []
    | some c =>
      if isWordU c then
        let r := runLen s isWordU p
        pySlice p (p + r) s :: findWordTokensF s fuel (p + r)
      else if c = '&' ∧ ¬ (0 < p ∧ wordAt s (p - 1)) ∧ ¬ wordAt s (p + 1) then
        ['&'] :: findWordTokensF s fuel (p + 1)
      else findWordTokensF s fuel (p + 1)

/-- Word tokens of a string. -/
def findWordTokens (s : Txt) : List Txt := findWordTokensF s (s.length + 1) 0

/-- The class `[^\w|\&]` of the punctuation-run tokenizer. -/
def puncCls (c : Char) : Bool := !(isWordU c) && c ≠ '|' && c ≠ '&'

/-- `re.findall(r"[^\w|\&]+", s, re.UNICODE)`: maximal runs of
characters outside `\w`, `|`, `&`. -/
def findPuncRunsF (s : Txt) : Nat → Nat → List Txt
  | 0, _ => []
  | fuel + 1, p =>
    match s.get? p with
    | none => []
    | some c =>
      if puncCls c then
        let r := runLen s puncCls p
        pySlice p (p + r) s :: findPuncRunsF s fuel (p + r)
      else findPuncRunsF s fuel (p + 1)

/-- Punctuation-run tokens of a string. -/
def findPuncRuns (s : Txt) : List Txt := findPuncRunsF s (s.length + 1) 0

/-! ## `diff_pair` (lines 6619-7087)

The function is split into its stages: `diffPairPre` (strips, prefix
loop, replacements, roman normalization, synonyms — up to line 6781),
the substring guard (lines 6783-6808), `diffPairMain` (the
parent-stripping attempt, lines 6810-6832) and `diffPairTokens` (the
novel-token analysis and reassembly, lines 6833-7087).  The `words`
counter and `ti_comp_list`/`nonWords` are omitted: they feed only log
output, never the returned value.  Appends of `~cwp_error` tags for
malformed option entries are likewise omitted (the entry is skipped, as
in the source). -/

/-- The intermediate strings after preprocessing: `mb`, `ti`, `mb_test`,
`ti_test` and the parsed replacement/synonym pairs. -/
structure PreResult where
  mb : Txt
  ti : Txt
  mbT : Txt
  tiT : Txt
  syns : List (Txt × Txt)
  deriving Repr, DecidableEq

/-- The initial strip of the title (lines 6639-6643). -/
def tiInit (title_item : Txt) : Txt :=
  let ti0 := pyStripChars [' ', ':', ';', '-', '.', ','] title_item
  let ti1 := if countC '"' ti0 = 1 then pyStripChars ['"'] ti0 else ti0
  if countC aposC ti1 = 1 then pyStripChars [aposC] ti1 else ti1

/-- The five-pass prefix strip applied to the `(mb, ti)` pair (lines
6664-6678). -/
def prefixLoop (o : CwpOpts) (pr : Txt × Txt) : Txt × Txt :=
  let removewords := if o.removewords_p ≠ [] then splitOnC ',' o.removewords_p else []
  (List.range 5).foldl (fun pr _ => prefixStep removewords pr) pr

/-- Lines 6664-6781 after the early returns: the prefix loop,
replacements on `ti`, roman-numeral normalization into
`mb_test`/`ti_test` and marked synonym substitution. -/
def preCore (o : CwpOpts) (mb ti2 : Txt) : PreResult :=
  let pr := prefixLoop o (mb, ti2)
  let reps := parseReplacements o.replacements
  let ti3 := reps.foldl applyReplacement pr.2
  let tiT0 := replaceRomanNumerals ti3
  let mbT0 := replaceRomanNumerals pr.1
  let syns := parseSynonyms o.synonyms
  let tst := syns.foldl applySynonym (mbT0, tiT0)
  ⟨pr.1, ti3, tst.1, tst.2, syns⟩

/-- Lines 6632-6781: initial strips and early `None` returns, then
`preCore`. -/
def diffPairPre (o : CwpOpts) (mb_item title_item : Txt) : Option PreResult :=
  let mb := pyStrip mb_item
  if mb = [] then none
  else
    let ti2 := tiInit title_item
    if ti2 = [] then none
    else some (preCore o mb ti2)

/-- The rich token list (lines 6852-6895): each `ti_test` token paired
with its display form and following punctuation, marked novel when its
boiled form is absent from the boiled `mb_test` token list.  The
`zip.getD` access is total where Python raises `IndexError` (titles
whose tokens are separated only by `|` or `&` leave `ti_zip_list` more
than one short of `ti_list`); no claim concerns such inputs. -/
def richInit (ti tiT mbT : Txt) : List ((Txt × Txt) × Bool) :=
  let ti_list0 := findWordTokens ti
  let punc0 := findPuncRuns ti
  let tt0 := findWordTokens tiT
  let lead : Bool := match punc0, ti with
    | pr :: _, c0 :: _ => pr.headD ' ' == c0
    | _, _ => false
  let tl := if lead then ([] : Txt) :: ti_list0 else ti_list0
  let ttl := if lead then ([] : Txt) :: tt0 else tt0
  let punc1 := if punc0.length < tl.length then punc0 ++ [[]] else punc0
  let zip := tl.zip punc1
  let mb_list2 := (findWordTokens mbT).map boil
  ttl.enum.map (fun it =>
    let ti_bit := zip.getD it.1 ([], [])
    if it.2 = [] ∨ boil it.2 ∈ mb_list2 then (ti_bit, false) else (ti_bit, true))

/-- Interior-singleton demotion (lines 6903-6915): with exactly one novel
token strictly inside the list, it is demoted; returns the list and the
surviving novel count `s`. -/
def demote (rich : List ((Txt × Txt) × Bool)) : List ((Txt × Txt) × Bool) × Nat :=
  let s0 := (rich.filter (fun r => r.2)).length
  let idx := rich.enum.foldl (fun acc ir => if ir.2.2 then ir.1 else acc) 0
  if s0 = 1 ∧ 0 < idx ∧ idx < rich.length - 1 then
    (rich.set idx ((rich.getD idx (([], []), false)).1, false), 0)
  else (rich, s0)

/-- One index of the proximity gap-fill loop (lines 6919-6944), carrying
the decaying window `p`: a non-novel token is promoted when a novel token
follows within `p` positions, or when within `p - d` of the string end;
`p` resets at each novel token and shrinks at each surviving non-novel
one. -/
def gapStep (prox d : Int) (st : List ((Txt × Txt) × Bool) × Int) (i : Nat) :
    List ((Txt × Txt) × Bool) × Int :=
  let rich := st.1
  let p := st.2
  let entry := rich.getD i (([], []), false)
  let next :=
    if entry.2 then (rich, prox)
    else if 0 < p then
      let hit := (List.range (p.toNat + 1)).any (fun j =>
        if i + j < rich.length then (rich.getD (i + j) (([], []), false)).2
        else decide ((j : Int) ≤ p - d))
      (if hit then rich.set i (entry.1, true) else rich, p)
    else (rich, p)
  let p3 := if (next.1.getD i (([], []), false)).2 then next.2 else next.2 - 1
  (next.1, p3)

/-- The whole gap-fill pass. -/
def gapAll (prox endProx : Int) (rich : List ((Txt × Txt) × Bool)) :
    List ((Txt × Txt) × Bool) :=
  ((List.range rich.length).foldl (gapStep prox (prox - endProx)) (rich, prox)).1

/-- Reassembly of the surviving tokens (lines 6956-6989): novel runs keep
their words and punctuation (trimmed before a following non-novel token),
demoted runs collapse to an ellipsis marker. -/
def reassemble (rich : List ((Txt × Txt) × Bool)) : List Txt :=
  (rich.enum.foldl (fun (st : List Txt × Bool) ir =>
    let i := ir.1
    let w := ir.2.1.1
    let pnc := ir.2.1.2
    if ir.2.2 then
      let prevPnc := (rich.getD (i - 1) (([], []), false)).1.2
      let acc1 := if ¬ st.2 ∧ 0 < i ∧ 1 < prevPnc.length then
          st.1 ++ [[prevPnc.getLastD ' ']]
        else st.1
      let acc2 := acc1 ++ [w]
      let acc3 :=
        if 1 < pnc.length then
          if i < rich.length - 1 then
            if (rich.getD (i + 1) (([], []), false)).2 then acc2 ++ [pnc]
            else acc2 ++ [pnc.dropLast]
          else acc2 ++ [pnc]
        else acc2 ++ [pnc]
      (acc3, true)
    else
      ((if st.2 then st.1 ++ [[Char.ofNat 0x2026, ' ']] else st.1), false))
    ([], false)).1

/-- Current-token/previous-token boiled equality for the duplicate
remover. -/
def prevBoilEq : Option Txt → Txt → Bool
  | some pv, tb => boil tb == boil pv
  | none, _ => false

/-- The duplicate-word removal loop (lines 7019-7031): Python iterates
over the list object it pops from, so after a removal the shifted next
element is skipped — reproduced by the live index walk. -/
def dupRemoveGo : Nat → List Txt → Nat → Option Txt → List Txt
  | 0, l, _, _ => l
  | fuel + 1, l, i, prev =>
    match l.get? i with
    | none => l
    | some tb =>
      if tb ≠ "...".toList ∧ 2 ≤ i ∧ prevBoilEq prev tb then
        dupRemoveGo fuel (l.eraseIdx i) (i + 1) (some tb)
      else dupRemoveGo fuel l (i + 1) (some tb)

/-- The final matched-bracket trim (lines 7076-7081): Python computes
`last` once before mutating `ti` (an index error in the shrunk case is
modelled as a failed comparison). -/
def matchChars (t : Txt) : Txt :=
  let last := t.length - 1
  [('(', ')'), ('[', ']'), (Char.ofNat 0x7B, Char.ofNat 0x7D)].foldl (fun st pr =>
    if st.headD ' ' = pr.1 ∧ st.get? last = some pr.2 then
      rstripIf (fun c => c = pr.2) (lstripIf (fun c => c = pr.1) st)
    else st) t

/-- Removal of all of one character when its partner is absent. -/
def dropUnmatched (l r : Char) (t : Txt) : Txt :=
  if l ∈ t ∧ r ∉ t then t.filter (fun c => c ≠ l) else t

/-- The final punctuation cleanup (lines 7050-7081). -/
def cleanupTail (t : Txt) : Txt :=
  let t1 := pyStripChars ['!', '&', '.', '-', ':', ';', ',', ' '] t
  let t2 := if countC '"' t1 = 1 then pyStripChars ['"'] t1 else t1
  let t3 := if countC aposC t2 = 1 then pyStripChars [aposC] t2 else t2
  let t11 :=
    if t3 ≠ [] then
      let t4 := if countC '"' t3 = 1 then pyStripChars ['"'] t3 else t3
      let t5 := if countC aposC t4 = 1 then pyStripChars [aposC] t4 else t4
      let t6 := dropUnmatched '(' ')' t5
      let t7 := dropUnmatched ')' '(' t6
      let t8 := dropUnmatched '[' ']' t7
      let t9 := dropUnmatched ']' '[' t8
      let t10 := dropUnmatched (Char.ofNat 0x7B) (Char.ofNat 0x7D) t9
      dropUnmatched (Char.ofNat 0x7D) (Char.ofNat 0x7B) t10
    else t3
  if t11 ≠ [] then matchChars t11 else t11

/-- The novel-token analysis of `diff_pair` (lines 6833-7087). -/
def diffPairTokens (o : CwpOpts) (pre : PreResult) : Option Txt :=
  let rich0 := richInit pre.ti pre.tiT pre.mbT
  let dr := demote rich0
  let rich2 := if 0 < dr.2 then gapAll o.proximity o.end_proximity dr.1 else dr.1
  if rich2.all (fun r => !r.2) then none
  else
    let ti_new := reassemble rich2
    if ti_new = [] then none
    else
      let ti4 := ti_new.foldr (fun a b => a ++ b) ([] : Txt)
      if ti4 = [] then none
      else
        let nop_ti := boil ti4
        let nop_mb := boil pre.mb
        let lcs := (longestCommonSubstring nop_mb nop_ti).string
        -- `len(lcs) >= ti_len * substring_match / 100`, compared exactly
        if nop_ti.length * o.substring_match ≤ 100 * lcs.length then none
        else
          let tl0 := splitOnC ' ' ti4
          let tl1 := dupRemoveGo (tl0.length + 1) tl0 0 none
          let mb_list2 := (findWordTokens pre.mbT).map boil
          if tl1 ≠ [] ∧ mb_list2 ≠ [] then
            let tl2 := if boil (tl1.headD []) = mb_list2.getLastD [] then tl1.tail else tl1
            if tl2 ≠ [] then
              let ti6 := cleanupTail (List.intercalate [' '] tl2)
              if ti6 ≠ [] then some (reverseSyn ti6 pre.syns) else none
            else none
          else none

/-- Lines 6810-6832: try to strip the catalog text (or its
granularity-split clauses) from the title; a successful strip returns the
un-marked remainder, otherwise the token analysis decides. -/
def diffPairMain (o : CwpOpts) (pre : PreResult) : Option Txt :=
  let nop_mb := boil pre.mbT
  if 0 < nop_mb.length then
    let ti_new := (stripParentFromWork pre.tiT pre.mbT).1
    if ti_new = pre.tiT then
      let mb_list := splitPunc pre.mbT o.granularity
      let ti_new2 := if mb_list ≠ [] then
          mb_list.foldl (fun t mb_bit => (stripParentFromWork t mb_bit).1) ti_new
        else ti_new
      if ti_new2 = [] then none else diffPairTokens o pre
    else if ti_new ≠ [] then some (reverseSyn ti_new pre.syns) else none
  else diffPairTokens o pre

/-- `PartLevels.diff_pair(mb_item, title_item)`: preprocessing, the
100%-substring guard (lines 6783-6808: return `None` when the longest
common substring of the boiled test strings reaches the whole boiled
title length), then the stripping and token stages. -/
def diffPair (o : CwpOpts) (mb_item title_item : Txt) : Option Txt :=
  match diffPairPre o mb_item title_item with
  | none => none
  | some pre =>
    let nop_ti := boil pre.tiT
    let nop_mb := boil pre.mbT
    let lcs := (longestCommonSubstring nop_mb nop_ti).string
    if nop_ti.length ≤ lcs.length then none
    else diffPairMain o pre

/-! ## C4, C5, C6: theorems about `diff_pair` -/

set_option maxRecDepth 16384

theorem isSeg_refl (t : Txt) : IsSeg t t := ⟨[], [], by simp⟩

/-- Component equality is preserved by one removeword step. -/
theorem applyRemoveword_diag (pr : Txt × Txt) (pfx : Txt) (h : pr.1 = pr.2) :
    (applyRemoveword pr pfx).1 = (applyRemoveword pr pfx).2 := by
  obtain ⟨a, b⟩ := pr
  simp only at h
  subst h
  unfold applyRemoveword
  cases pfx with
  | nil => rfl
  | cons c rest => dsimp only; split <;> rfl

theorem foldl_diag {β : Type} (f : Txt × Txt → β → Txt × Txt)
    (hf : ∀ pr a, pr.1 = pr.2 → (f pr a).1 = (f pr a).2) :
    ∀ (l : List β) (pr : Txt × Txt), pr.1 = pr.2 →
      (l.foldl f pr).1 = (l.foldl f pr).2 := by
  intro l
  induction l with
  | nil => intro pr h; exact h
  | cons a rest ih => intro pr h; exact ih (f pr a) (hf pr a h)

/-- One prefix pass preserves component equality. -/
theorem prefixStep_diag (rws : List Txt) (pr : Txt × Txt) (h : pr.1 = pr.2) :
    (prefixStep rws pr).1 = (prefixStep rws pr).2 := by
  obtain ⟨a, b⟩ := pr
  simp only at h
  subst h
  unfold prefixStep
  have h2 := foldl_diag (applyRemoveword) applyRemoveword_diag rws
    (pyStrip (p2Strip (p1Strip a)), pyStrip (p2Strip (p1Strip a))) rfl
  dsimp only
  rw [h2]

/-- The prefix loop preserves component equality. -/
theorem prefixLoop_diag (o : CwpOpts) (x : Txt) :
    (prefixLoop o (x, x)).1 = (prefixLoop o (x, x)).2 := by
  unfold prefixLoop
  exact foldl_diag _ (fun pr a h => prefixStep_diag _ pr h) (List.range 5) (x, x) rfl

/-- One synonym pass preserves component equality. -/
theorem applySynonym_diag (pr : Txt × Txt) (kv : Txt × Txt) (h : pr.1 = pr.2) :
    (applySynonym pr kv).1 = (applySynonym pr kv).2 := by
  obtain ⟨a, b⟩ := pr
  simp only at h
  subst h
  rfl

/-- When the replacements leave the prefix-stripped string unchanged,
`mb_test` and `ti_test` of `diff_pair(x, x)` coincide. -/
theorem preCore_self_eq (o : CwpOpts) (x : Txt)
    (h6 : (parseReplacements o.replacements).foldl applyReplacement
        (prefixLoop o (x, x)).2 = (prefixLoop o (x, x)).2) :
    (preCore o x x).mbT = (preCore o x x).tiT := by
  unfold preCore
  dsimp only
  rw [h6, prefixLoop_diag o x]
  exact foldl_diag _ applySynonym_diag (parseSynonyms o.synonyms) _ rfl

/-- When the boiled test title is no longer than the longest common
substring of the boiled test strings, `diff_pair` returns `None` at the
substring guard. -/
theorem diffPair_guard_none (o : CwpOpts) (a b : Txt) (pre : PreResult)
    (hpre : diffPairPre o a b = some pre)
    (hlen : (boil pre.tiT).length ≤
      ((longestCommonSubstring (boil pre.mbT) (boil pre.tiT)).string).length) :
    diffPair o a b = none := by
  unfold diffPair
  rw [hpre]
  simp [hlen]

/-- C4 (amended): whenever the boiled preprocessed title (`ti_test` after
the prefix strip, replacements, roman-numeral and synonym normalization)
is wholly contained as a contiguous substring of the boiled preprocessed
catalog text, `diff_pair` returns empty: the longest common substring
then reaches the full boiled-title length and the 100% guard fires. -/
theorem diffPair_substring_guard (o : CwpOpts) (a b : Txt) (pre : PreResult)
    (hpre : diffPairPre o a b = some pre)
    (hseg : IsSeg (boil pre.tiT) (boil pre.mbT)) :
    diffPair o a b = none :=
  diffPair_guard_none o a b pre hpre
    (lcs_ge_common (boil pre.mbT) (boil pre.tiT) (boil pre.tiT) hseg (isSeg_refl _))

/-- Witness for `diffPair_substring_guard`: the spec's own example
`diff("Symphony No. 5 in C minor", "symphony no 5") = ""`. -/
theorem diffPair_substring_guard_witness :
    diffPair defaultOpts "Symphony No. 5 in C minor".toList "symphony no 5".toList = none :=
  diffPair_substring_guard defaultOpts _ _
    (preCore defaultOpts "Symphony No. 5 in C minor".toList "symphony no 5".toList)
    rfl ((isSegB_iff _ _).mp rfl)

/-- C4 counterexample: `boil(title) = "kqfobazuiv"` is wholly contained
in `boil(catalogText) = "fobazukqfobazuiv"` (at offset 6), yet
`diff_pair` returns the non-empty residual `"kq … IV"`: the roman numeral
is normalized in the test strings only, so the 100% guard misses; the
three non-novel interior tokens are dropped; and the two disconnected
surviving chunks keep the reassembled residual below the final 66%
similarity guard. -/
theorem diffPair_substring_cex :
    isSegB (boil "kq fo ba zu IV".toList) (boil "fo ba zu kqfobazuiv".toList) = true ∧
    diffPair defaultOpts "fo ba zu kqfobazuiv".toList "kq fo ba zu IV".toList =
      some ("kq ".toList ++ [Char.ofNat 0x2026] ++ " IV".toList) :=
  ⟨rfl, rfl⟩

/-- C5 (amended): `diff_pair(x, x)` returns `None` for every normalized
`x` — no surrounding whitespace, nothing for the title strip to remove —
on which the configured replacement pairs make no change (they are
applied to the title only). -/
theorem diffPair_self_normalized (x : Txt)
    (h1 : pyStrip x = x) (h2 : tiInit x = x)
    (h6 : (parseReplacements defaultOpts.replacements).foldl applyReplacement
        (prefixLoop defaultOpts (x, x)).2 = (prefixLoop defaultOpts (x, x)).2) :
    diffPair defaultOpts x x = none := by
  by_cases hx : x = []
  · subst hx
    rfl
  · have hpre : diffPairPre defaultOpts x x = some (preCore defaultOpts x x) := by
      simp only [diffPairPre]
      rw [h1, h2]
      simp [hx]
    refine diffPair_guard_none defaultOpts x x _ hpre ?_
    have heq := preCore_self_eq defaultOpts x h6
    rw [heq]
    exact lcs_ge_common _ _ _ (isSeg_refl _) (isSeg_refl _)

/-- Witness for `diffPair_self_normalized`. -/
theorem diffPair_self_normalized_witness :
    diffPair defaultOpts "Allegro".toList "Allegro".toList = none :=
  diffPair_self_normalized "Allegro".toList rfl rfl rfl

/-- C5 counterexample: with the default options the replacement pair
`(words to be replaced, replacement words)` is applied to the title
only, so the normalized string `"words to be replaced"` diffed against
itself yields the non-empty residual `"replacement words"`. -/
theorem diffPair_self_cex :
    pyStrip "words to be replaced".toList = "words to be replaced".toList ∧
    tiInit "words to be replaced".toList = "words to be replaced".toList ∧
    diffPair defaultOpts "words to be replaced".toList "words to be replaced".toList =
      some "replacement words".toList :=
  ⟨rfl, rfl, rfl⟩

/-- C6 counterexample: with the default proximity settings,
`diff_pair("Allegro vivace", "Allegro molto vivace")` returns `None` —
not the connected residual `"molto"`. -/
theorem diffPair_gapfill_cex :
    diffPair defaultOpts "Allegro vivace".toList "Allegro molto vivace".toList = none := rfl

/-- C6 (amended): on catalog `"Allegro vivace"` and title
`"Allegro molto vivace"` the preprocessing leaves the strings unchanged,
the rich token list marks exactly the interior token `molto` as novel,
the interior-singleton rule demotes it (novel count drops to 0) before
the gap-fill pass is ever consulted, and `diff_pair` returns `None`. -/
theorem diffPair_interior_singleton_demoted :
    (diffPairPre defaultOpts "Allegro vivace".toList "Allegro molto vivace".toList).map
        (fun pre => (pre.ti, pre.tiT, pre.mbT)) =
      some ("Allegro molto vivace".toList, "Allegro molto vivace".toList,
        "Allegro vivace".toList) ∧
    (richInit "Allegro molto vivace".toList "Allegro molto vivace".toList
        "Allegro vivace".toList).map (fun r => r.2) = [false, true, false] ∧
    (demote (richInit "Allegro molto vivace".toList "Allegro molto vivace".toList
        "Allegro vivace".toList)).2 = 0 ∧
    diffPair defaultOpts "Allegro vivace".toList "Allegro molto vivace".toList = none :=
  ⟨rfl, rfl, rfl, rfl⟩
